import Mathlib

/-!
Verification of the memory-ops service core: the sliding-window rate limiter
(`app/rate_limit.py`) and the QR-HEAD context reducer
(`app/services/qr_retriever.py`, wrapped by `app/compression.py`).

The Python code is shallowly embedded: timestamps are rationals, Python ints
are `Int`, the per-identity dict is an insertion-ordered association list,
deques are lists (popleft from the front, append at the back), and the
tokenizer / relevance model are abstract collaborators.
-/

namespace MemoryOps

/-! ### Rate limiter state (`app/rate_limit.py`)

`Quota` mirrors the `Quota` dataclass: timestamps of admitted requests and
(timestamp, token count) usage events, both append-only and trimmed from the
front. -/

structure Quota where
  reqs : List ℚ
  tokens : List (ℚ × ℤ)
deriving DecidableEq

def Quota.empty : Quota := ⟨[], []⟩

/-- The `RateLimiter` object: the two configured ceilings and the in-memory
per-identity store (`self._store`), modelled as an insertion-ordered
association list exactly like a Python dict. -/
structure RateLimiter where
  requestsPerMinute : ℤ
  tokensPerMinute : ℤ
  store : List (String × Quota)
deriving DecidableEq

/-- Python `x or y` on integers: `x` if it is truthy (non-zero), else `y`. -/
def pyOrInt (x y : ℤ) : ℤ := if x = 0 then y else x

/-- `RateLimiter.__init__`: `requests_per_minute` is stored as given, while
`self.tokens_per_minute = tokens_per_minute or settings.tokens_per_minute or
settings.rate_limit_tpm` (left-associated Python `or` chain). -/
def mkRateLimiter (requestsPerMinute tokensPerMinute settingsTokensPerMinute
    settingsRateLimitTpm : ℤ) : RateLimiter :=
  { requestsPerMinute := requestsPerMinute
    tokensPerMinute := pyOrInt (pyOrInt tokensPerMinute settingsTokensPerMinute)
      settingsRateLimitTpm
    store := [] }

/-- `get_rate_limiter()`: builds a limiter from settings, passing
`settings.tokens_per_minute or settings.rate_limit_tpm` as the constructor
argument. -/
def getRateLimiter (settingsRequestsPerMinute settingsTokensPerMinute
    settingsRateLimitTpm : ℤ) : RateLimiter :=
  mkRateLimiter settingsRequestsPerMinute
    (pyOrInt settingsTokensPerMinute settingsRateLimitTpm)
    settingsTokensPerMinute settingsRateLimitTpm

/-- Dict lookup: first binding for the key, if any. -/
def storeGet : List (String × Quota) → String → Option Quota
  | [], _ => none
  | (k, q) :: rest, identity => if k = identity then some q else storeGet rest identity

/-- Dict write: replace the existing binding in place, or append a new one
(Python dicts keep insertion order). -/
def storeSet : List (String × Quota) → String → Quota → List (String × Quota)
  | [], identity, q => [(identity, q)]
  | (k, q0) :: rest, identity, q =>
    if k = identity then (k, q) :: rest else (k, q0) :: storeSet rest identity q

/-- `_get_quota`: the identity's quota, a fresh empty one if absent (the
Python method also inserts the empty quota; every state update in `check`
goes through `storeSet`, which performs that insertion). -/
def getQuota (rl : RateLimiter) (identity : String) : Quota :=
  (storeGet rl.store identity).getD Quota.empty

/-- The purge loops of `check`: drop entries with timestamp `≤ now - 60`
from the front of both deques. -/
def purgeQuota (now : ℚ) (q : Quota) : Quota :=
  ⟨q.reqs.dropWhile (fun t => decide (t ≤ now - 60)),
   q.tokens.dropWhile (fun e => decide (e.1 ≤ now - 60))⟩

inductive CheckResult where
  | admitted
  | requestRateExceeded
  | tokenRateExceeded
deriving DecidableEq

/-- `RateLimiter.check(identity, tokens)` at wall-clock time `now`:
purge expired entries, reject on the request ceiling, then on the token
ceiling, otherwise record the request.  Returns the outcome (the raised
`HTTPException`'s reason, or admission) together with the updated limiter. -/
def check (rl : RateLimiter) (identity : String) (tokens : ℤ) (now : ℚ) :
    CheckResult × RateLimiter :=
  if rl.requestsPerMinute > 0 ∧
      ((purgeQuota now (getQuota rl identity)).reqs.length : ℤ) ≥ rl.requestsPerMinute then
    (CheckResult.requestRateExceeded,
      { rl with store := storeSet rl.store identity (purgeQuota now (getQuota rl identity)) })
  else if rl.tokensPerMinute > 0 ∧
      ((purgeQuota now (getQuota rl identity)).tokens.map Prod.snd).sum + tokens >
        rl.tokensPerMinute then
    (CheckResult.tokenRateExceeded,
      { rl with store := storeSet rl.store identity (purgeQuota now (getQuota rl identity)) })
  else
    (CheckResult.admitted,
      { rl with store := (storeSet rl.store identity
          (Quota.mk ((purgeQuota now (getQuota rl identity)).reqs ++ [now])
            ((purgeQuota now (getQuota rl identity)).tokens ++ [(now, tokens)]))) })

/-- One `check` call: the caller's identity, the token count passed in, and
the wall-clock time at which the call happens. -/
structure Call where
  identity : String
  tokens : ℤ
  now : ℚ
deriving DecidableEq

/-- The calls of a sequence that `check` admits, threading the limiter state
through the sequence. -/
def admittedCalls : RateLimiter → List Call → List Call
  | _, [] => []
  | rl, c :: cs =>
    if (check rl c.identity c.tokens c.now).1 = CheckResult.admitted then
      c :: admittedCalls (check rl c.identity c.tokens c.now).2 cs
    else
      admittedCalls (check rl c.identity c.tokens c.now).2 cs

/-- Timestamps of the admitted requests of one identity, in call order. -/
def admittedTimes (rl : RateLimiter) (calls : List Call) (identity : String) : List ℚ :=
  ((admittedCalls rl calls).filter (fun c => decide (c.identity = identity))).map Call.now

/-- Token usage events (timestamp, token count) of the admitted requests of
one identity, in call order. -/
def admittedEvents (rl : RateLimiter) (calls : List Call) (identity : String) :
    List (ℚ × ℤ) :=
  ((admittedCalls rl calls).filter (fun c => decide (c.identity = identity))).map
    (fun c => (c.now, c.tokens))

/-- Membership of a timestamp in the trailing 60-second window ending at `T`:
the purge keeps exactly the entries with `T - 60 < t`, and an entry recorded
at time `t` is in the window when additionally `t ≤ T`. -/
def inWindow (T t : ℚ) : Bool := decide (T - 60 < t) && decide (t ≤ T)

/-! ### Context reducer (`app/services/qr_retriever.py`)

The tokenizer is the external collaborator from `transformers`: an abstract
encode/decode pair over token ids.  The relevance model (attention scores of
the retrieval heads, averaged) is the Relevance Oracle: an abstract per-token
score; the oracle is unavailable exactly when `retrieval_heads` is empty. -/

structure Tokenizer where
  encode : String → List ℕ
  decode : List ℕ → String

/-- The fixed separator `sep` composed between query and context. -/
def sepText : String := "\n\n### CONTEXT ###\n\n"

structure ReduceResult where
  condensed : String
  tokensBefore : ℕ
  tokensAfter : ℕ
deriving DecidableEq

/-- `half = max(top_k // 2, 1)` of the fallback path; Python `//` is floor
division (`Int.fdiv`), and the result is a list length. -/
def pyHalf (topK : ℤ) : ℕ := (max (Int.fdiv topK 2) 1).toNat

/-- The fallback selection on the context token ids: keep everything when
`len(context_ids) <= top_k`, else `context_ids[:half] + context_ids[-half:]`
(`half ≥ 1`, so the negative slice is the last `half` entries, the whole list
when it is shorter than `half`). -/
def fallbackSelected (contextIds : List ℕ) (topK : ℤ) : List ℕ :=
  if (contextIds.length : ℤ) ≤ topK then contextIds
  else
    contextIds.take (pyHalf topK) ++
      contextIds.drop (contextIds.length - pyHalf topK)

/-- Modelled from the spec, for comparison with `fallbackSelected` (the code):
"keep the first `⌈top_k/2⌉` and the last `⌊top_k/2⌋` tokens of the context
(at least 1 token on each side)". -/
def specFallbackSelected (contextIds : List ℕ) (topK : ℤ) : List ℕ :=
  if (contextIds.length : ℤ) ≤ topK then contextIds
  else
    contextIds.take (max (Int.fdiv (topK + 1) 2) 1).toNat ++
      contextIds.drop (contextIds.length - (max (Int.fdiv topK 2) 1).toNat)

/-- `reduce` when no retrieval heads are available: tokenize
`query + sep + context`, slice off the first `len(query ids) + len(sep ids)`
positions to recover the context ids, apply the fallback selection and decode.
`tokens_before` is the full sequence length, `tokens_after` the number of
selected ids. -/
def reduceFallback (tok : Tokenizer) (query context : String) (topK : ℤ) :
    ReduceResult :=
  { condensed := tok.decode
      (fallbackSelected
        ((tok.encode (query ++ sepText ++ context)).drop
          ((tok.encode query).length + (tok.encode sepText).length)) topK)
    tokensBefore := (tok.encode (query ++ sepText ++ context)).length
    tokensAfter := (fallbackSelected
      ((tok.encode (query ++ sepText ++ context)).drop
        ((tok.encode query).length + (tok.encode sepText).length)) topK).length }

/-- Relevance scores after masking: `none` is the `-inf` written over the
query and separator positions, `some q` a finite score. -/
def scoreLtB : Option ℚ → Option ℚ → Bool
  | none, none => false
  | none, some _ => true
  | some _, none => false
  | some x, some y => decide (x < y)

def scoreAt (scores : List (Option ℚ)) (i : ℕ) : Option ℚ := scores.getD i none

/-- Selection order of `torch.topk` followed by the deterministic tie-break
the spec fixes: `i` is ranked before `j` when its score is strictly higher,
or the scores are equal and `i` is the lower position. -/
def RankLE (scores : List (Option ℚ)) (i j : ℕ) : Prop :=
  scoreLtB (scoreAt scores j) (scoreAt scores i) = true ∨
    (scoreAt scores i = scoreAt scores j ∧ i ≤ j)

instance (scores : List (Option ℚ)) : DecidableRel (RankLE scores) :=
  fun _ _ => inferInstanceAs (Decidable (_ ∨ _))

/-- `relevance[: query_len + sep_len] = -inf`: the first `qsLen` positions of
the relevance vector are masked out. -/
def forcedScores (relevance : List ℚ) (qsLen : ℕ) : List (Option ℚ) :=
  relevance.enum.map (fun e => if e.1 < qsLen then none else some e.2)

/-- `torch.topk(relevance, k)`: the `k` best-ranked positions. -/
def topkIndices (scores : List (Option ℚ)) (k : ℕ) : List ℕ :=
  (List.insertionSort (RankLE scores) (List.range scores.length)).take k

/-- `torch.sort(top_indices)`: the selected positions back in ascending
original order. -/
def sortedPositions (scores : List (Option ℚ)) (k : ℕ) : List ℕ :=
  List.insertionSort (· ≤ ·) (topkIndices scores k)

/-- The positions `reduce` selects on the oracle path: scores of the full
sequence with query and separator positions forced to `-inf`, top
`min(top_k, seq_len)` taken, re-sorted ascending. -/
def oracleSelectedPositions (tok : Tokenizer) (relevance : ℕ → ℚ)
    (query context : String) (topK : ℤ) : List ℕ :=
  sortedPositions
    (forcedScores
      ((List.range (tok.encode (query ++ sepText ++ context)).length).map relevance)
      ((tok.encode query).length + (tok.encode sepText).length))
    (min topK.toNat (tok.encode (query ++ sepText ++ context)).length)

/-- `reduce` when retrieval heads are available.  A negative `top_k` makes
`torch.topk` raise (`none`); otherwise the selected positions are gathered
from the input ids and decoded. -/
def reduceOracle (tok : Tokenizer) (relevance : ℕ → ℚ) (query context : String)
    (topK : ℤ) : Option ReduceResult :=
  if topK < 0 then none
  else
    some
      { condensed := tok.decode
          ((oracleSelectedPositions tok relevance query context topK).map
            (fun i => (tok.encode (query ++ sepText ++ context)).getD i 0))
        tokensBefore := (tok.encode (query ++ sepText ++ context)).length
        tokensAfter := ((oracleSelectedPositions tok relevance query context topK).map
          (fun i => (tok.encode (query ++ sepText ++ context)).getD i 0)).length }

/-- `reduce(query, context, top_k)`: fallback path when the oracle is
unavailable (`retrieval_heads` empty), oracle path otherwise. -/
def reduce (tok : Tokenizer) (oracle : Option (ℕ → ℚ)) (query context : String)
    (topK : ℤ) : Option ReduceResult :=
  match oracle with
  | none => some (reduceFallback tok query context topK)
  | some relevance => reduceOracle tok relevance query context topK

/-- `app/compression.py`'s `compress`: delegates to `reduce` with the
process-wide configured `top_k`. -/
def compress (tok : Tokenizer) (oracle : Option (ℕ → ℚ)) (settingsTopK : ℤ)
    (query context : String) : Option ReduceResult :=
  reduce tok oracle query context settingsTopK

/-- A concrete tokenizer (one token per character) used to evaluate the
embedding on concrete inputs. -/
def charTok : Tokenizer :=
  { encode := fun s => s.toList.map Char.toNat
    decode := fun l => String.mk (l.map Char.ofNat) }

/-! ### Store lemmas -/

theorem storeGet_storeSet_self (s : List (String × Quota)) (identity : String)
    (q : Quota) : storeGet (storeSet s identity q) identity = some q := by
  induction s with
  | nil => simp [storeSet, storeGet]
  | cons hd tl ih =>
    obtain ⟨k, q0⟩ := hd
    by_cases hk : k = identity
    · simp [storeSet, storeGet, hk]
    · simp [storeSet, storeGet, hk, ih]

theorem storeGet_storeSet_ne (s : List (String × Quota)) (identity id' : String)
    (q : Quota) (h : id' ≠ identity) :
    storeGet (storeSet s identity q) id' = storeGet s id' := by
  induction s with
  | nil => simp [storeSet, storeGet, Ne.symm h]
  | cons hd tl ih =>
    obtain ⟨k, q0⟩ := hd
    by_cases hk : k = identity
    · subst hk
      simp [storeSet, storeGet, Ne.symm h]
    · by_cases hk' : k = id'
      · simp [storeSet, storeGet, hk, hk', h]
      · simp [storeSet, storeGet, hk, hk', ih]

theorem getQuota_set_self (rl : RateLimiter) (identity : String) (q : Quota)
    (rpm tpm : ℤ) :
    getQuota ⟨rpm, tpm, storeSet rl.store identity q⟩ identity = q := by
  simp [getQuota, storeGet_storeSet_self]

theorem getQuota_set_ne (rl : RateLimiter) (identity id' : String) (q : Quota)
    (rpm tpm : ℤ) (h : id' ≠ identity) :
    getQuota ⟨rpm, tpm, storeSet rl.store identity q⟩ id' = getQuota rl id' := by
  simp [getQuota, storeGet_storeSet_ne _ _ _ _ h]

/-! ### `check` branch lemmas -/

theorem check_preserves_limits (rl : RateLimiter) (identity : String)
    (tokens : ℤ) (now : ℚ) :
    (check rl identity tokens now).2.requestsPerMinute = rl.requestsPerMinute ∧
      (check rl identity tokens now).2.tokensPerMinute = rl.tokensPerMinute := by
  rw [check]
  split
  · exact ⟨rfl, rfl⟩
  · split
    · exact ⟨rfl, rfl⟩
    · exact ⟨rfl, rfl⟩

theorem check_store_rejected (rl : RateLimiter) (identity : String)
    (tokens : ℤ) (now : ℚ)
    (h : (check rl identity tokens now).1 ≠ CheckResult.admitted) :
    (check rl identity tokens now).2.store =
      storeSet rl.store identity (purgeQuota now (getQuota rl identity)) := by
  by_cases h1 : rl.requestsPerMinute > 0 ∧
      ((purgeQuota now (getQuota rl identity)).reqs.length : ℤ) ≥ rl.requestsPerMinute
  · rw [check, if_pos h1]
  · by_cases h2 : rl.tokensPerMinute > 0 ∧
        ((purgeQuota now (getQuota rl identity)).tokens.map Prod.snd).sum + tokens >
          rl.tokensPerMinute
    · rw [check, if_neg h1, if_pos h2]
    · exact absurd (by rw [check, if_neg h1, if_neg h2]) h

theorem check_store_admitted (rl : RateLimiter) (identity : String)
    (tokens : ℤ) (now : ℚ)
    (h : (check rl identity tokens now).1 = CheckResult.admitted) :
    (check rl identity tokens now).2.store =
      storeSet rl.store identity
        (Quota.mk ((purgeQuota now (getQuota rl identity)).reqs ++ [now])
          ((purgeQuota now (getQuota rl identity)).tokens ++ [(now, tokens)])) := by
  by_cases h1 : rl.requestsPerMinute > 0 ∧
      ((purgeQuota now (getQuota rl identity)).reqs.length : ℤ) ≥ rl.requestsPerMinute
  · rw [check, if_pos h1] at h
    exact absurd h (by simp)
  · by_cases h2 : rl.tokensPerMinute > 0 ∧
        ((purgeQuota now (getQuota rl identity)).tokens.map Prod.snd).sum + tokens >
          rl.tokensPerMinute
    · rw [check, if_neg h1, if_pos h2] at h
      exact absurd h (by simp)
    · rw [check, if_neg h1, if_neg h2]

theorem check_admitted_req_bound (rl : RateLimiter) (identity : String)
    (tokens : ℤ) (now : ℚ)
    (h : (check rl identity tokens now).1 = CheckResult.admitted)
    (hrpm : 0 < rl.requestsPerMinute) :
    ((purgeQuota now (getQuota rl identity)).reqs.length : ℤ) <
      rl.requestsPerMinute := by
  rw [check] at h
  split at h
  · simp at h
  · rename_i hreq
    rw [not_and_or] at hreq
    rcases hreq with hreq | hreq
    · omega
    · omega

theorem check_admitted_token_bound (rl : RateLimiter) (identity : String)
    (tokens : ℤ) (now : ℚ)
    (h : (check rl identity tokens now).1 = CheckResult.admitted)
    (htpm : 0 < rl.tokensPerMinute) :
    ((purgeQuota now (getQuota rl identity)).tokens.map Prod.snd).sum + tokens ≤
      rl.tokensPerMinute := by
  rw [check] at h
  split at h
  · simp at h
  · split at h
    · simp at h
    · rename_i htok
      rw [not_and_or] at htok
      rcases htok with htok | htok
      · omega
      · omega

/-! ### List helper lemmas -/

theorem sublist_dropWhile_of_not {α : Type} {p : α → Bool} :
    ∀ {l l' : List α}, l'.Sublist l → (∀ x ∈ l', p x = false) →
      l'.Sublist (l.dropWhile p)
  | [], l', hs, hf => by simpa using hs
  | a :: t, l', hs, hf => by
    rw [List.dropWhile_cons]
    by_cases hpa : p a = true
    · rw [if_pos hpa]
      cases hs with
      | cons _ hs' => exact sublist_dropWhile_of_not hs' hf
      | cons₂ _ hs' =>
        exact absurd (hf a (by simp)) (by simp [hpa])
    · rw [if_neg hpa]
      exact hs

theorem sum_le_sum_of_sublist {l' l : List ℤ} (hs : l'.Sublist l)
    (hpos : ∀ x ∈ l, 0 ≤ x) : l'.sum ≤ l.sum := by
  induction hs with
  | slnil => simp
  | cons a _ ih =>
    rename_i l₁ l₂ _
    have := ih (fun x hx => hpos x (by simp [hx]))
    have ha : 0 ≤ a := hpos a (by simp)
    simp only [List.sum_cons]
    omega
  | cons₂ a _ ih =>
    rename_i l₁ l₂ _
    have := ih (fun x hx => hpos x (by simp [hx]))
    simp only [List.sum_cons]
    omega

/-- A list element-wise described by positions: `take n` for `n ≤ length`. -/
theorem take_eq_map_range {α : Type} (d : α) (l : List α) (n : ℕ)
    (h : n ≤ l.length) :
    l.take n = (List.range n).map (fun i => l.getD i d) := by
  apply List.ext_getElem
  · simp [h]
  · intro i h₁ h₂
    have hi : i < l.length := by
      simp only [List.length_take] at h₁
      omega
    simp only [List.getElem_take, List.getElem_map, List.getElem_range]
    rw [List.getD_eq_getElem l d hi]

/-- A list element-wise described by positions: `drop m` reads positions
`m, m+1, …` of the original list. -/
theorem drop_eq_map_range {α : Type} (d : α) (l : List α) (m : ℕ) :
    l.drop m = (List.range (l.length - m)).map (fun i => l.getD (m + i) d) := by
  apply List.ext_getElem
  · simp
  · intro i h₁ h₂
    have hi : m + i < l.length := by
      simp only [List.length_drop] at h₁
      omega
    simp only [List.getElem_drop, List.getElem_map, List.getElem_range]
    rw [List.getD_eq_getElem l d hi]

/-! ### Unfolding lemmas for call traces -/

theorem admittedCalls_cons (rl : RateLimiter) (c : Call) (cs : List Call) :
    admittedCalls rl (c :: cs) =
      if (check rl c.identity c.tokens c.now).1 = CheckResult.admitted then
        c :: admittedCalls (check rl c.identity c.tokens c.now).2 cs
      else admittedCalls (check rl c.identity c.tokens c.now).2 cs := rfl

theorem admittedTimes_nil (rl : RateLimiter) (identity : String) :
    admittedTimes rl [] identity = [] := rfl

theorem admittedTimes_cons_admitted_eq (rl : RateLimiter) (c : Call)
    (cs : List Call) (identity : String)
    (hadm : (check rl c.identity c.tokens c.now).1 = CheckResult.admitted)
    (hid : c.identity = identity) :
    admittedTimes rl (c :: cs) identity =
      c.now :: admittedTimes (check rl c.identity c.tokens c.now).2 cs identity := by
  subst hid
  simp [admittedTimes, admittedCalls_cons, hadm]

theorem admittedTimes_cons_admitted_ne (rl : RateLimiter) (c : Call)
    (cs : List Call) (identity : String)
    (hadm : (check rl c.identity c.tokens c.now).1 = CheckResult.admitted)
    (hid : c.identity ≠ identity) :
    admittedTimes rl (c :: cs) identity =
      admittedTimes (check rl c.identity c.tokens c.now).2 cs identity := by
  simp [admittedTimes, admittedCalls_cons, hadm, hid]

theorem admittedTimes_cons_rejected (rl : RateLimiter) (c : Call)
    (cs : List Call) (identity : String)
    (hadm : (check rl c.identity c.tokens c.now).1 ≠ CheckResult.admitted) :
    admittedTimes rl (c :: cs) identity =
      admittedTimes (check rl c.identity c.tokens c.now).2 cs identity := by
  simp [admittedTimes, admittedCalls_cons, hadm]

theorem admittedEvents_nil (rl : RateLimiter) (identity : String) :
    admittedEvents rl [] identity = [] := rfl

theorem admittedEvents_cons_admitted_eq (rl : RateLimiter) (c : Call)
    (cs : List Call) (identity : String)
    (hadm : (check rl c.identity c.tokens c.now).1 = CheckResult.admitted)
    (hid : c.identity = identity) :
    admittedEvents rl (c :: cs) identity =
      (c.now, c.tokens) ::
        admittedEvents (check rl c.identity c.tokens c.now).2 cs identity := by
  subst hid
  simp [admittedEvents, admittedCalls_cons, hadm]

theorem admittedEvents_cons_admitted_ne (rl : RateLimiter) (c : Call)
    (cs : List Call) (identity : String)
    (hadm : (check rl c.identity c.tokens c.now).1 = CheckResult.admitted)
    (hid : c.identity ≠ identity) :
    admittedEvents rl (c :: cs) identity =
      admittedEvents (check rl c.identity c.tokens c.now).2 cs identity := by
  simp [admittedEvents, admittedCalls_cons, hadm, hid]

theorem admittedEvents_cons_rejected (rl : RateLimiter) (c : Call)
    (cs : List Call) (identity : String)
    (hadm : (check rl c.identity c.tokens c.now).1 ≠ CheckResult.admitted) :
    admittedEvents rl (c :: cs) identity =
      admittedEvents (check rl c.identity c.tokens c.now).2 cs identity := by
  simp [admittedEvents, admittedCalls_cons, hadm]

theorem inWindow_iff (T t : ℚ) : inWindow T t = true ↔ (T - 60 < t ∧ t ≤ T) := by
  rw [inWindow]
  simp

/-! ### The sliding-window invariant for request counts

Induction along the call trace.  `past` collects the admitted timestamps of
the identity so far, `τ` is a lower bound on all remaining call times.  The
invariants carried: every past admitted timestamp newer than `τ - 60` is
still recorded in the identity's `reqs` (as a sublist), and every trailing
window over `past` already respects the ceiling. -/

theorem requests_window_aux (calls : List Call) :
    ∀ (rl : RateLimiter) (identity : String) (past : List ℚ) (τ T : ℚ),
      0 < rl.requestsPerMinute →
      List.Pairwise (fun a b : Call => a.now ≤ b.now) calls →
      (∀ c ∈ calls, τ ≤ c.now) →
      (past.filter (fun t => decide (τ - 60 < t))).Sublist (getQuota rl identity).reqs →
      (∀ T' : ℚ, ((past.filter (inWindow T')).length : ℤ) ≤ rl.requestsPerMinute) →
      (((past ++ admittedTimes rl calls identity).filter (inWindow T)).length : ℤ) ≤
        rl.requestsPerMinute := by
  induction calls with
  | nil =>
    intro rl identity past τ T hrpm _ _ _ hPB
    rw [admittedTimes_nil, List.append_nil]
    exact hPB T
  | cons c cs ih =>
    intro rl identity past τ T hrpm hmono hτ hsub hPB
    rw [List.pairwise_cons] at hmono
    obtain ⟨hc_le, hmono'⟩ := hmono
    have hτc : τ ≤ c.now := hτ c (by simp)
    have hlim := (check_preserves_limits rl c.identity c.tokens c.now).1
    have hsub_now : (past.filter (fun t => decide (c.now - 60 < t))).Sublist
        (getQuota rl identity).reqs := by
      refine List.Sublist.trans ?_ hsub
      apply List.monotone_filter_right
      intro t ht
      rw [decide_eq_true_eq] at ht ⊢
      linarith
    have hnotp : ∀ t ∈ past.filter (fun t => decide (c.now - 60 < t)),
        (fun t : ℚ => decide (t ≤ c.now - 60)) t = false := by
      intro t ht
      rw [List.mem_filter, decide_eq_true_eq] at ht
      exact decide_eq_false (not_le.mpr ht.2)
    have hpurged : (past.filter (fun t => decide (c.now - 60 < t))).Sublist
        (purgeQuota c.now (getQuota rl identity)).reqs :=
      sublist_dropWhile_of_not hsub_now hnotp
    by_cases hadm : (check rl c.identity c.tokens c.now).1 = CheckResult.admitted
    · by_cases hid : c.identity = identity
      · subst hid
        have hstore := check_store_admitted rl c.identity c.tokens c.now hadm
        have hbound := check_admitted_req_bound rl c.identity c.tokens c.now hadm hrpm
        have hq' : getQuota (check rl c.identity c.tokens c.now).2 c.identity =
            Quota.mk ((purgeQuota c.now (getQuota rl c.identity)).reqs ++ [c.now])
              ((purgeQuota c.now (getQuota rl c.identity)).tokens ++
                [(c.now, c.tokens)]) := by
          unfold getQuota
          rw [hstore, storeGet_storeSet_self]
          rfl
        have hsub' : ((past ++ [c.now]).filter
            (fun t => decide (c.now - 60 < t))).Sublist
            (getQuota (check rl c.identity c.tokens c.now).2 c.identity).reqs := by
          rw [hq', List.filter_append]
          have hsingle : List.filter (fun t => decide (c.now - 60 < t)) [c.now] =
              [c.now] := by
            have : ((c.now : ℚ) - 60 < c.now) := by linarith
            simp [List.filter_cons, this]
          rw [hsingle]
          exact List.Sublist.append hpurged (List.Sublist.refl [c.now])
        have hPB' : ∀ T' : ℚ, (((past ++ [c.now]).filter (inWindow T')).length : ℤ) ≤
            (check rl c.identity c.tokens c.now).2.requestsPerMinute := by
          intro T'
          rw [hlim, List.filter_append]
          by_cases hwin : inWindow T' c.now = true
          · obtain ⟨hw1, hw2⟩ := (inWindow_iff T' c.now).mp hwin
            have hsingle : List.filter (inWindow T') [c.now] = [c.now] := by
              simp [List.filter_cons, hwin]
            rw [hsingle]
            have hsubw : (past.filter (inWindow T')).Sublist
                (past.filter (fun t => decide (c.now - 60 < t))) := by
              apply List.monotone_filter_right
              intro t ht
              obtain ⟨ht1, ht2⟩ := (inWindow_iff T' t).mp ht
              rw [decide_eq_true_eq]
              linarith
            have hlen1 : (past.filter (inWindow T')).length ≤
                (purgeQuota c.now (getQuota rl c.identity)).reqs.length :=
              (hsubw.trans hpurged).length_le
            rw [List.length_append, List.length_cons, List.length_nil]
            push_cast
            omega
          · have hsingle : List.filter (inWindow T') [c.now] = [] := by
              simp [List.filter_cons, hwin]
            rw [hsingle, List.append_nil]
            exact hPB T'
        have hrec := ih (check rl c.identity c.tokens c.now).2 c.identity
          (past ++ [c.now]) c.now T (by rw [hlim]; exact hrpm) hmono' hc_le hsub' hPB'
        rw [admittedTimes_cons_admitted_eq rl c cs c.identity hadm rfl,
          List.append_cons]
        rw [hlim] at hrec
        exact hrec
      · have hstore := check_store_admitted rl c.identity c.tokens c.now hadm
        have hq' : getQuota (check rl c.identity c.tokens c.now).2 identity =
            getQuota rl identity := by
          unfold getQuota
          rw [hstore, storeGet_storeSet_ne _ _ _ _ (Ne.symm hid)]
        have hsub' : (past.filter (fun t => decide (c.now - 60 < t))).Sublist
            (getQuota (check rl c.identity c.tokens c.now).2 identity).reqs := by
          rw [hq']
          exact hsub_now
        have hPB' : ∀ T' : ℚ, ((past.filter (inWindow T')).length : ℤ) ≤
            (check rl c.identity c.tokens c.now).2.requestsPerMinute := by
          intro T'
          rw [hlim]
          exact hPB T'
        have hrec := ih (check rl c.identity c.tokens c.now).2 identity past c.now T
          (by rw [hlim]; exact hrpm) hmono' hc_le hsub' hPB'
        rw [admittedTimes_cons_admitted_ne rl c cs identity hadm hid]
        rw [hlim] at hrec
        exact hrec
    · have hstore := check_store_rejected rl c.identity c.tokens c.now hadm
      by_cases hid : c.identity = identity
      · subst hid
        have hq' : getQuota (check rl c.identity c.tokens c.now).2 c.identity =
            purgeQuota c.now (getQuota rl c.identity) := by
          unfold getQuota
          rw [hstore, storeGet_storeSet_self]
          rfl
        have hsub' : (past.filter (fun t => decide (c.now - 60 < t))).Sublist
            (getQuota (check rl c.identity c.tokens c.now).2 c.identity).reqs := by
          rw [hq']
          exact hpurged
        have hPB' : ∀ T' : ℚ, ((past.filter (inWindow T')).length : ℤ) ≤
            (check rl c.identity c.tokens c.now).2.requestsPerMinute := by
          intro T'
          rw [hlim]
          exact hPB T'
        have hrec := ih (check rl c.identity c.tokens c.now).2 c.identity past c.now T
          (by rw [hlim]; exact hrpm) hmono' hc_le hsub' hPB'
        rw [admittedTimes_cons_rejected rl c cs c.identity hadm]
        rw [hlim] at hrec
        exact hrec
      · have hq' : getQuota (check rl c.identity c.tokens c.now).2 identity =
            getQuota rl identity := by
          unfold getQuota
          rw [hstore, storeGet_storeSet_ne _ _ _ _ (Ne.symm hid)]
        have hsub' : (past.filter (fun t => decide (c.now - 60 < t))).Sublist
            (getQuota (check rl c.identity c.tokens c.now).2 identity).reqs := by
          rw [hq']
          exact hsub_now
        have hPB' : ∀ T' : ℚ, ((past.filter (inWindow T')).length : ℤ) ≤
            (check rl c.identity c.tokens c.now).2.requestsPerMinute := by
          intro T'
          rw [hlim]
          exact hPB T'
        have hrec := ih (check rl c.identity c.tokens c.now).2 identity past c.now T
          (by rw [hlim]; exact hrpm) hmono' hc_le hsub' hPB'
        rw [admittedTimes_cons_rejected rl c cs identity hadm]
        rw [hlim] at hrec
        exact hrec

/-! ### The sliding-window invariant for token sums

Same induction as for request counts; token counts are additionally assumed
nonnegative (they count prompt+completion tokens), which is needed because a
trailing window sums a sublist of the recorded events. -/

theorem tokens_window_aux (calls : List Call) :
    ∀ (rl : RateLimiter) (identity : String) (past : List (ℚ × ℤ)) (τ T : ℚ),
      0 < rl.tokensPerMinute →
      List.Pairwise (fun a b : Call => a.now ≤ b.now) calls →
      (∀ c ∈ calls, τ ≤ c.now) →
      (∀ c ∈ calls, 0 ≤ c.tokens) →
      (past.filter (fun e => decide (τ - 60 < e.1))).Sublist
        (getQuota rl identity).tokens →
      (∀ e ∈ (getQuota rl identity).tokens, 0 ≤ e.2) →
      (∀ e ∈ past, 0 ≤ e.2) →
      (∀ T' : ℚ, ((past.filter (fun e => inWindow T' e.1)).map Prod.snd).sum ≤
        rl.tokensPerMinute) →
      (((past ++ admittedEvents rl calls identity).filter
        (fun e => inWindow T e.1)).map Prod.snd).sum ≤ rl.tokensPerMinute := by
  induction calls with
  | nil =>
    intro rl identity past τ T htpm _ _ _ _ _ _ hPB
    rw [admittedEvents_nil, List.append_nil]
    exact hPB T
  | cons c cs ih =>
    intro rl identity past τ T htpm hmono hτ hnn hsub hqpos hppos hPB
    rw [List.pairwise_cons] at hmono
    obtain ⟨hc_le, hmono'⟩ := hmono
    have hτc : τ ≤ c.now := hτ c (by simp)
    have hcnn : 0 ≤ c.tokens := hnn c (by simp)
    have hnn' : ∀ c' ∈ cs, 0 ≤ c'.tokens := fun c' hc' => hnn c' (by simp [hc'])
    have hlim := (check_preserves_limits rl c.identity c.tokens c.now).2
    have hsub_now : (past.filter (fun e => decide (c.now - 60 < e.1))).Sublist
        (getQuota rl identity).tokens := by
      refine List.Sublist.trans ?_ hsub
      apply List.monotone_filter_right
      intro e he
      rw [decide_eq_true_eq] at he ⊢
      linarith
    have hnotp : ∀ e ∈ past.filter (fun e => decide (c.now - 60 < e.1)),
        (fun e : ℚ × ℤ => decide (e.1 ≤ c.now - 60)) e = false := by
      intro e he
      rw [List.mem_filter, decide_eq_true_eq] at he
      exact decide_eq_false (not_le.mpr he.2)
    have hpurged : (past.filter (fun e => decide (c.now - 60 < e.1))).Sublist
        (purgeQuota c.now (getQuota rl identity)).tokens :=
      sublist_dropWhile_of_not hsub_now hnotp
    have hpurged_pos : ∀ e ∈ (purgeQuota c.now (getQuota rl identity)).tokens,
        0 ≤ e.2 := by
      intro e he
      exact hqpos e ((List.dropWhile_sublist _).subset he)
    by_cases hadm : (check rl c.identity c.tokens c.now).1 = CheckResult.admitted
    · by_cases hid : c.identity = identity
      · subst hid
        have hstore := check_store_admitted rl c.identity c.tokens c.now hadm
        have hbound := check_admitted_token_bound rl c.identity c.tokens c.now hadm htpm
        have hq' : getQuota (check rl c.identity c.tokens c.now).2 c.identity =
            Quota.mk ((purgeQuota c.now (getQuota rl c.identity)).reqs ++ [c.now])
              ((purgeQuota c.now (getQuota rl c.identity)).tokens ++
                [(c.now, c.tokens)]) := by
          unfold getQuota
          rw [hstore, storeGet_storeSet_self]
          rfl
        have hsub' : ((past ++ [(c.now, c.tokens)]).filter
            (fun e => decide (c.now - 60 < e.1))).Sublist
            (getQuota (check rl c.identity c.tokens c.now).2 c.identity).tokens := by
          rw [hq', List.filter_append]
          have hsingle : List.filter (fun e : ℚ × ℤ => decide (c.now - 60 < e.1))
              [(c.now, c.tokens)] = [(c.now, c.tokens)] := by
            have : ((c.now : ℚ) - 60 < c.now) := by linarith
            simp [List.filter_cons, this]
          rw [hsingle]
          exact List.Sublist.append hpurged (List.Sublist.refl [(c.now, c.tokens)])
        have hqpos' : ∀ e ∈ (getQuota (check rl c.identity c.tokens c.now).2
            c.identity).tokens, 0 ≤ e.2 := by
          rw [hq']
          intro e he
          rcases List.mem_append.mp he with he | he
          · exact hpurged_pos e he
          · rw [List.mem_singleton] at he
            subst he
            exact hcnn
        have hppos' : ∀ e ∈ past ++ [(c.now, c.tokens)], 0 ≤ e.2 := by
          intro e he
          rcases List.mem_append.mp he with he | he
          · exact hppos e he
          · rw [List.mem_singleton] at he
            subst he
            exact hcnn
        have hPB' : ∀ T' : ℚ, (((past ++ [(c.now, c.tokens)]).filter
            (fun e => inWindow T' e.1)).map Prod.snd).sum ≤
            (check rl c.identity c.tokens c.now).2.tokensPerMinute := by
          intro T'
          rw [hlim, List.filter_append]
          by_cases hwin : inWindow T' c.now = true
          · obtain ⟨hw1, hw2⟩ := (inWindow_iff T' c.now).mp hwin
            have hsingle : List.filter (fun e : ℚ × ℤ => inWindow T' e.1)
                [(c.now, c.tokens)] = [(c.now, c.tokens)] := by
              simp [List.filter_cons, hwin]
            rw [hsingle]
            have hsubw : (past.filter (fun e => inWindow T' e.1)).Sublist
                (past.filter (fun e => decide (c.now - 60 < e.1))) := by
              apply List.monotone_filter_right
              intro e he
              obtain ⟨he1, he2⟩ := (inWindow_iff T' e.1).mp he
              rw [decide_eq_true_eq]
              linarith
            have hsum1 : ((past.filter (fun e => inWindow T' e.1)).map Prod.snd).sum ≤
                (((purgeQuota c.now (getQuota rl c.identity)).tokens).map
                  Prod.snd).sum := by
              apply sum_le_sum_of_sublist ((hsubw.trans hpurged).map Prod.snd)
              intro x hx
              rw [List.mem_map] at hx
              obtain ⟨e, he, hex⟩ := hx
              rw [← hex]
              exact hpurged_pos e he
            rw [List.map_append, List.sum_append]
            simp only [List.map_cons, List.map_nil, List.sum_cons, List.sum_nil]
            omega
          · have hsingle : List.filter (fun e : ℚ × ℤ => inWindow T' e.1)
                [(c.now, c.tokens)] = [] := by
              simp [List.filter_cons, hwin]
            rw [hsingle, List.append_nil]
            exact hPB T'
        have hrec := ih (check rl c.identity c.tokens c.now).2 c.identity
          (past ++ [(c.now, c.tokens)]) c.now T (by rw [hlim]; exact htpm) hmono'
          hc_le hnn' hsub' hqpos' hppos' hPB'
        rw [admittedEvents_cons_admitted_eq rl c cs c.identity hadm rfl,
          List.append_cons]
        rw [hlim] at hrec
        exact hrec
      · have hstore := check_store_admitted rl c.identity c.tokens c.now hadm
        have hq' : getQuota (check rl c.identity c.tokens c.now).2 identity =
            getQuota rl identity := by
          unfold getQuota
          rw [hstore, storeGet_storeSet_ne _ _ _ _ (Ne.symm hid)]
        have hsub' : (past.filter (fun e => decide (c.now - 60 < e.1))).Sublist
            (getQuota (check rl c.identity c.tokens c.now).2 identity).tokens := by
          rw [hq']
          exact hsub_now
        have hqpos' : ∀ e ∈ (getQuota (check rl c.identity c.tokens c.now).2
            identity).tokens, 0 ≤ e.2 := by
          rw [hq']
          exact hqpos
        have hPB' : ∀ T' : ℚ, ((past.filter (fun e => inWindow T' e.1)).map
            Prod.snd).sum ≤ (check rl c.identity c.tokens c.now).2.tokensPerMinute := by
          intro T'
          rw [hlim]
          exact hPB T'
        have hrec := ih (check rl c.identity c.tokens c.now).2 identity past c.now T
          (by rw [hlim]; exact htpm) hmono' hc_le hnn' hsub' hqpos' hppos hPB'
        rw [admittedEvents_cons_admitted_ne rl c cs identity hadm hid]
        rw [hlim] at hrec
        exact hrec
    · have hstore := check_store_rejected rl c.identity c.tokens c.now hadm
      by_cases hid : c.identity = identity
      · subst hid
        have hq' : getQuota (check rl c.identity c.tokens c.now).2 c.identity =
            purgeQuota c.now (getQuota rl c.identity) := by
          unfold getQuota
          rw [hstore, storeGet_storeSet_self]
          rfl
        have hsub' : (past.filter (fun e => decide (c.now - 60 < e.1))).Sublist
            (getQuota (check rl c.identity c.tokens c.now).2 c.identity).tokens := by
          rw [hq']
          exact hpurged
        have hqpos' : ∀ e ∈ (getQuota (check rl c.identity c.tokens c.now).2
            c.identity).tokens, 0 ≤ e.2 := by
          rw [hq']
          exact hpurged_pos
        have hPB' : ∀ T' : ℚ, ((past.filter (fun e => inWindow T' e.1)).map
            Prod.snd).sum ≤ (check rl c.identity c.tokens c.now).2.tokensPerMinute := by
          intro T'
          rw [hlim]
          exact hPB T'
        have hrec := ih (check rl c.identity c.tokens c.now).2 c.identity past c.now T
          (by rw [hlim]; exact htpm) hmono' hc_le hnn' hsub' hqpos' hppos hPB'
        rw [admittedEvents_cons_rejected rl c cs c.identity hadm]
        rw [hlim] at hrec
        exact hrec
      · have hq' : getQuota (check rl c.identity c.tokens c.now).2 identity =
            getQuota rl identity := by
          unfold getQuota
          rw [hstore, storeGet_storeSet_ne _ _ _ _ (Ne.symm hid)]
        have hsub' : (past.filter (fun e => decide (c.now - 60 < e.1))).Sublist
            (getQuota (check rl c.identity c.tokens c.now).2 identity).tokens := by
          rw [hq']
          exact hsub_now
        have hqpos' : ∀ e ∈ (getQuota (check rl c.identity c.tokens c.now).2
            identity).tokens, 0 ≤ e.2 := by
          rw [hq']
          exact hqpos
        have hPB' : ∀ T' : ℚ, ((past.filter (fun e => inWindow T' e.1)).map
            Prod.snd).sum ≤ (check rl c.identity c.tokens c.now).2.tokensPerMinute := by
          intro T'
          rw [hlim]
          exact hPB T'
        have hrec := ih (check rl c.identity c.tokens c.now).2 identity past c.now T
          (by rw [hlim]; exact htpm) hmono' hc_le hnn' hsub' hqpos' hppos hPB'
        rw [admittedEvents_cons_rejected rl c cs identity hadm]
        rw [hlim] at hrec
        exact hrec

theorem check_no_request_reject (rl : RateLimiter) (identity : String)
    (tokens : ℤ) (now : ℚ) (h : rl.requestsPerMinute ≤ 0) :
    (check rl identity tokens now).1 ≠ CheckResult.requestRateExceeded := by
  rw [check, if_neg (fun hc => absurd hc.1 (not_lt.mpr h))]
  split <;> simp

theorem check_no_token_reject (rl : RateLimiter) (identity : String)
    (tokens : ℤ) (now : ℚ) (h : rl.tokensPerMinute ≤ 0) :
    (check rl identity tokens now).1 ≠ CheckResult.tokenRateExceeded := by
  rw [check]
  split
  · simp
  · rw [if_neg (fun hc => absurd hc.1 (not_lt.mpr h))]
    simp

theorem pyOrInt_of_ne_zero {x : ℤ} (y : ℤ) (h : x ≠ 0) : pyOrInt x y = x :=
  if_neg h

/-! ### Claim theorems: rate limiter -/

/-- C1: for every identity and every (time-ordered) sequence of `check`
calls starting from a fresh limiter with a positive `requests_per_minute`,
the number of admitted requests whose timestamps lie in any trailing
60-second window `(T - 60, T]` never exceeds `requests_per_minute`. -/
theorem admitted_requests_window_le_ceiling (calls : List Call) (rpm tpm : ℤ)
    (identity : String) (T : ℚ) (hrpm : 0 < rpm)
    (hmono : List.Pairwise (fun a b : Call => a.now ≤ b.now) calls) :
    (((admittedTimes ⟨rpm, tpm, []⟩ calls identity).filter (inWindow T)).length : ℤ) ≤
      rpm := by
  cases calls with
  | nil =>
    rw [admittedTimes_nil]
    simp
    omega
  | cons c cs =>
    have hτ : ∀ c' ∈ (c :: cs), c.now ≤ c'.now := by
      intro c' hc'
      rcases List.mem_cons.mp hc' with h | h
      · rw [h]
      · exact (List.pairwise_cons.mp hmono).1 c' h
    have haux := requests_window_aux (c :: cs) ⟨rpm, tpm, []⟩ identity [] c.now T
      hrpm hmono hτ (by simp [getQuota, storeGet, Quota.empty])
      (by intro T'; simp; omega)
    simpa using haux

/-- C1 witness: the spec's scenario A (ceilings 2 requests and 100 tokens
per minute; calls at t = 0, 1, 2). -/
theorem admitted_requests_window_le_ceiling_witness :
    (((admittedTimes ⟨2, 100, []⟩ [⟨"id", 10, 0⟩, ⟨"id", 20, 1⟩, ⟨"id", 1, 2⟩]
      "id").filter (inWindow 2)).length : ℤ) ≤ 2 :=
  admitted_requests_window_le_ceiling _ _ _ _ _ (by decide)
    (by norm_num [List.pairwise_cons])

/-- C2: for every identity and every (time-ordered) sequence of `check`
calls with nonnegative token counts, starting from a fresh limiter with a
positive `tokens_per_minute`, the sum of token counts of admitted requests
whose timestamps lie in any trailing 60-second window never exceeds
`tokens_per_minute`. -/
theorem admitted_tokens_window_le_ceiling (calls : List Call) (rpm tpm : ℤ)
    (identity : String) (T : ℚ) (htpm : 0 < tpm)
    (hmono : List.Pairwise (fun a b : Call => a.now ≤ b.now) calls)
    (hnn : ∀ c ∈ calls, 0 ≤ c.tokens) :
    (((admittedEvents ⟨rpm, tpm, []⟩ calls identity).filter
      (fun e => inWindow T e.1)).map Prod.snd).sum ≤ tpm := by
  cases calls with
  | nil =>
    rw [admittedEvents_nil]
    simp
    omega
  | cons c cs =>
    have hτ : ∀ c' ∈ (c :: cs), c.now ≤ c'.now := by
      intro c' hc'
      rcases List.mem_cons.mp hc' with h | h
      · rw [h]
      · exact (List.pairwise_cons.mp hmono).1 c' h
    have haux := tokens_window_aux (c :: cs) ⟨rpm, tpm, []⟩ identity [] c.now T
      htpm hmono hτ hnn (by simp [getQuota, storeGet, Quota.empty])
      (by simp [getQuota, storeGet, Quota.empty]) (by simp)
      (by intro T'; simp; omega)
    simpa using haux

/-- C2 witness: the spec's scenario B (5 requests / 100 tokens per minute;
60 tokens admitted at t = 0, 50 more rejected at t = 1). -/
theorem admitted_tokens_window_le_ceiling_witness :
    (((admittedEvents ⟨5, 100, []⟩ [⟨"id", 60, 0⟩, ⟨"id", 50, 1⟩] "id").filter
      (fun e => inWindow 1 e.1)).map Prod.snd).sum ≤ 100 :=
  admitted_tokens_window_le_ceiling _ _ _ _ _ (by decide)
    (by norm_num [List.pairwise_cons]) (by decide)

/-- C3 counterexample: a rejected `check` call is not state-preserving — the
purge performed before the ceiling tests survives the rejection.  At `now =
61` the expired entry at `t = 0` is dropped, then the call is rejected on the
token ceiling, and the stored quota has changed. -/
theorem check_rejection_mutates_state :
    (check ⟨1, 5, [("a", ⟨[0], [(0, 3)]⟩)]⟩ "a" 100 61).1 =
      CheckResult.tokenRateExceeded ∧
    (check ⟨1, 5, [("a", ⟨[0], [(0, 3)]⟩)]⟩ "a" 100 61).2.store ≠
      [("a", ⟨[0], [(0, 3)]⟩)] := by
  refine ⟨?_, ?_⟩ <;>
    norm_num [check, getQuota, storeGet, storeSet, purgeQuota, List.dropWhile_cons]

/-- C3 (amended): a rejected `check` call appends nothing — afterwards the
rejected identity's quota equals the purge (front entries with timestamp
`≤ now - 60` dropped) of its previous quota, and every other identity's
quota is unchanged. -/
theorem check_rejected_state (rl : RateLimiter) (identity id' : String)
    (tokens : ℤ) (now : ℚ)
    (h : (check rl identity tokens now).1 ≠ CheckResult.admitted) :
    getQuota (check rl identity tokens now).2 id' =
      if id' = identity then purgeQuota now (getQuota rl identity)
      else getQuota rl id' := by
  have hstore := check_store_rejected rl identity tokens now h
  by_cases hid : id' = identity
  · subst hid
    rw [if_pos rfl]
    unfold getQuota
    rw [hstore, storeGet_storeSet_self]
    rfl
  · rw [if_neg hid]
    unfold getQuota
    rw [hstore, storeGet_storeSet_ne _ _ _ _ hid]

/-- C3 witness: the rejected call of the counterexample lands exactly on the
purged quota. -/
theorem check_rejected_state_witness :
    getQuota (check ⟨1, 5, [("a", ⟨[0], [(0, 3)]⟩)]⟩ "a" 100 61).2 "a" =
      if ("a" : String) = "a" then
        purgeQuota 61 (getQuota ⟨1, 5, [("a", ⟨[0], [(0, 3)]⟩)]⟩ "a")
      else getQuota ⟨1, 5, [("a", ⟨[0], [(0, 3)]⟩)]⟩ "a" :=
  check_rejected_state _ "a" "a" 100 61
    (by norm_num [check, getQuota, storeGet, purgeQuota, List.dropWhile_cons]
        decide)

/-- C4 counterexample: a configured `tokens_per_minute` of zero does not
disable the token check — `__init__`'s `or` chain replaces it with the
settings fallback (default 20000), and a call can then be rejected with
`TOKEN_RATE_EXCEEDED`. -/
theorem zero_token_ceiling_not_disabled :
    (mkRateLimiter 5 0 20000 20000).tokensPerMinute = 20000 ∧
    (check (mkRateLimiter 5 0 20000 20000) "a" 30000 0).1 =
      CheckResult.tokenRateExceeded := by
  refine ⟨?_, ?_⟩ <;>
    norm_num [check, mkRateLimiter, pyOrInt, getQuota, storeGet, purgeQuota,
      Quota.empty, List.dropWhile_cons]

/-- C4 (amended): `requests_per_minute ≤ 0` disables the request check, and
a *negative* `tokens_per_minute` disables the token check; a zero
`tokens_per_minute` is replaced at construction by the settings fallback, so
the token check is disabled only when the resulting effective ceiling is
nonpositive. -/
theorem nonpositive_ceilings_disable (rpmArg tpmArg sTpm sRlTpm : ℤ)
    (s : List (String × Quota)) (identity : String) (tokens : ℤ) (now : ℚ) :
    (rpmArg ≤ 0 →
      (check { mkRateLimiter rpmArg tpmArg sTpm sRlTpm with store := s } identity
        tokens now).1 ≠ CheckResult.requestRateExceeded) ∧
    (tpmArg < 0 →
      (check { mkRateLimiter rpmArg tpmArg sTpm sRlTpm with store := s } identity
        tokens now).1 ≠ CheckResult.tokenRateExceeded) ∧
    ((mkRateLimiter rpmArg tpmArg sTpm sRlTpm).tokensPerMinute ≤ 0 →
      (check { mkRateLimiter rpmArg tpmArg sTpm sRlTpm with store := s } identity
        tokens now).1 ≠ CheckResult.tokenRateExceeded) := by
  refine ⟨fun h => ?_, fun h => ?_, fun h => ?_⟩
  · exact check_no_request_reject _ _ _ _ h
  · apply check_no_token_reject
    show (mkRateLimiter rpmArg tpmArg sTpm sRlTpm).tokensPerMinute ≤ 0
    simp only [mkRateLimiter]
    rw [pyOrInt_of_ne_zero _ (by omega : tpmArg ≠ 0),
      pyOrInt_of_ne_zero _ (by omega : tpmArg ≠ 0)]
    omega
  · exact check_no_token_reject _ _ _ _ h

/-- C4 witness: `requests_per_minute = 0` and `tokens_per_minute = -1`
disable both checks on a concrete call. -/
theorem nonpositive_ceilings_disable_witness :
    (check { mkRateLimiter 0 (-1) 20000 20000 with store := [] } "a" 5 0).1 ≠
      CheckResult.requestRateExceeded ∧
    (check { mkRateLimiter 0 (-1) 20000 20000 with store := [] } "a" 5 0).1 ≠
      CheckResult.tokenRateExceeded :=
  ⟨(nonpositive_ceilings_disable 0 (-1) 20000 20000 [] "a" 5 0).1 (by decide),
   (nonpositive_ceilings_disable 0 (-1) 20000 20000 [] "a" 5 0).2.1 (by decide)⟩

/-! ### Score-order lemmas for the oracle path -/

theorem scoreLtB_trichotomy (a b : Option ℚ) :
    a = b ∨ scoreLtB a b = true ∨ scoreLtB b a = true := by
  cases a with
  | none =>
    cases b with
    | none => exact Or.inl rfl
    | some y => exact Or.inr (Or.inl rfl)
  | some x =>
    cases b with
    | none => exact Or.inr (Or.inr rfl)
    | some y =>
      rcases lt_trichotomy x y with h | h | h
      · exact Or.inr (Or.inl (by simp [scoreLtB, h]))
      · exact Or.inl (by rw [h])
      · exact Or.inr (Or.inr (by simp [scoreLtB, h]))

theorem scoreLtB_trans : ∀ {a b c : Option ℚ}, scoreLtB a b = true →
    scoreLtB b c = true → scoreLtB a c = true
  | none, none, _, h1, _ => by simp [scoreLtB] at h1
  | some _, none, _, h1, _ => by simp [scoreLtB] at h1
  | none, some _, none, _, h2 => by simp [scoreLtB] at h2
  | some _, some _, none, _, h2 => by simp [scoreLtB] at h2
  | none, some _, some _, _, _ => rfl
  | some x, some y, some z, h1, h2 => by
    simp only [scoreLtB, decide_eq_true_eq] at h1 h2 ⊢
    exact lt_trans h1 h2

instance (scores : List (Option ℚ)) : IsTotal ℕ (RankLE scores) where
  total i j := by
    rcases scoreLtB_trichotomy (scoreAt scores i) (scoreAt scores j) with h | h | h
    · rcases le_total i j with hij | hij
      · exact Or.inl (Or.inr ⟨h, hij⟩)
      · exact Or.inr (Or.inr ⟨h.symm, hij⟩)
    · exact Or.inr (Or.inl h)
    · exact Or.inl (Or.inl h)

instance (scores : List (Option ℚ)) : IsTrans ℕ (RankLE scores) where
  trans i j k hij hjk := by
    rcases hij with h1 | ⟨e1, l1⟩
    · rcases hjk with h2 | ⟨e2, l2⟩
      · exact Or.inl (scoreLtB_trans h2 h1)
      · rw [e2] at h1
        exact Or.inl h1
    · rcases hjk with h2 | ⟨e2, l2⟩
      · rw [← e1] at h2
        exact Or.inl h2
      · exact Or.inr ⟨e1.trans e2, le_trans l1 l2⟩

theorem length_forcedScores (relevance : List ℚ) (qsLen : ℕ) :
    (forcedScores relevance qsLen).length = relevance.length := by
  simp [forcedScores]

theorem scoreAt_forcedScores (relevance : List ℚ) (qsLen i : ℕ)
    (hi : i < relevance.length) :
    scoreAt (forcedScores relevance qsLen) i =
      if i < qsLen then none else some relevance[i] := by
  have hlen : i < (forcedScores relevance qsLen).length := by
    rw [length_forcedScores]
    exact hi
  rw [scoreAt, List.getD_eq_getElem _ _ hlen]
  simp [forcedScores]

theorem scoreAt_forcedScores_ge (relevance : List ℚ) (qsLen i : ℕ)
    (hi : relevance.length ≤ i) :
    scoreAt (forcedScores relevance qsLen) i = none := by
  rw [scoreAt, List.getD_eq_default]
  rw [length_forcedScores]
  exact hi

/-- Core property of the oracle-path selection: as long as the requested
count fits inside the unmasked (context) region, no masked position is
picked — a masked (`-inf`) position in the top `k` would force all context
positions into the strictly earlier ranks, which is impossible when there
are at least `k` of them. -/
theorem topkIndices_avoid_masked (relevance : List ℚ) (qsLen k : ℕ)
    (hk : k ≤ relevance.length - qsLen) :
    ∀ i ∈ topkIndices (forcedScores relevance qsLen) k, qsLen ≤ i := by
  intro i hi
  by_contra hlt
  push_neg at hlt
  rw [topkIndices] at hi
  have hperm := List.perm_insertionSort (RankLE (forcedScores relevance qsLen))
    (List.range (forcedScores relevance qsLen).length)
  have hsorted := List.sorted_insertionSort (RankLE (forcedScores relevance qsLen))
    (List.range (forcedScores relevance qsLen).length)
  obtain ⟨p, hp, hpe⟩ := List.getElem_of_mem hi
  have hps : p < (List.insertionSort (RankLE (forcedScores relevance qsLen))
      (List.range (forcedScores relevance qsLen).length)).length := by
    simp only [List.length_take] at hp
    omega
  have hpk : p < k := by
    simp only [List.length_take] at hp
    omega
  have hspi : (List.insertionSort (RankLE (forcedScores relevance qsLen))
      (List.range (forcedScores relevance qsLen).length))[p] = i := by
    rw [← hpe, List.getElem_take]
  have hdrop : (List.insertionSort (RankLE (forcedScores relevance qsLen))
      (List.range (forcedScores relevance qsLen).length)).drop p =
      i :: (List.insertionSort (RankLE (forcedScores relevance qsLen))
        (List.range (forcedScores relevance qsLen).length)).drop (p + 1) := by
    rw [← List.getElem_cons_drop _ p hps, hspi]
  have hdecomp : List.insertionSort (RankLE (forcedScores relevance qsLen))
      (List.range (forcedScores relevance qsLen).length) =
      (List.insertionSort (RankLE (forcedScores relevance qsLen))
        (List.range (forcedScores relevance qsLen).length)).take p ++
      i :: (List.insertionSort (RankLE (forcedScores relevance qsLen))
        (List.range (forcedScores relevance qsLen).length)).drop (p + 1) := by
    rw [← hdrop, List.take_append_drop]
  have hsi : scoreAt (forcedScores relevance qsLen) i = none := by
    by_cases him : i < relevance.length
    · rw [scoreAt_forcedScores _ _ _ him, if_pos hlt]
    · exact scoreAt_forcedScores_ge _ _ _ (le_of_not_lt him)
  have hCprop : ∀ j ∈ List.range' qsLen (relevance.length - qsLen),
      qsLen ≤ j ∧ j < relevance.length := by
    intro j hj
    rw [List.mem_range'_1] at hj
    omega
  have hgood_some : ∀ j ∈ List.range' qsLen (relevance.length - qsLen),
      ∃ x, scoreAt (forcedScores relevance qsLen) j = some x := by
    intro j hj
    obtain ⟨h1, h2⟩ := hCprop j hj
    rw [scoreAt_forcedScores _ _ _ h2, if_neg (by omega)]
    exact ⟨_, rfl⟩
  have hpw := hsorted
  rw [List.Sorted, hdecomp, List.pairwise_append, List.pairwise_cons] at hpw
  obtain ⟨_, ⟨hiv, _⟩, _⟩ := hpw
  have hnotin : ∀ j ∈ List.range' qsLen (relevance.length - qsLen),
      j ∉ (List.insertionSort (RankLE (forcedScores relevance qsLen))
        (List.range (forcedScores relevance qsLen).length)).drop (p + 1) := by
    intro j hj hmem
    have hr := hiv j hmem
    obtain ⟨x, hx⟩ := hgood_some j hj
    rcases hr with hr | ⟨hr, _⟩
    · rw [hsi, hx] at hr
      simp [scoreLtB] at hr
    · rw [hsi, hx] at hr
      simp at hr
  have hji : ∀ j ∈ List.range' qsLen (relevance.length - qsLen), j ≠ i := by
    intro j hj hji
    obtain ⟨x, hx⟩ := hgood_some j hj
    rw [hji, hsi] at hx
    simp at hx
  have hmem_s : ∀ j ∈ List.range' qsLen (relevance.length - qsLen),
      j ∈ List.insertionSort (RankLE (forcedScores relevance qsLen))
        (List.range (forcedScores relevance qsLen).length) := by
    intro j hj
    rw [hperm.mem_iff, List.mem_range, length_forcedScores]
    exact (hCprop j hj).2
  have hsub : List.range' qsLen (relevance.length - qsLen) ⊆
      (List.insertionSort (RankLE (forcedScores relevance qsLen))
        (List.range (forcedScores relevance qsLen).length)).take p := by
    intro j hj
    have hmem := hmem_s j hj
    rw [hdecomp] at hmem
    rcases List.mem_append.mp hmem with hmem | hmem
    · exact hmem
    · rcases List.mem_cons.mp hmem with hmem | hmem
      · exact absurd hmem (hji j hj)
      · exact absurd hmem (hnotin j hj)
  have hcount := (List.subperm_of_subset (List.nodup_range' _ _) hsub).length_le
  rw [List.length_range'] at hcount
  have htake : ((List.insertionSort (RankLE (forcedScores relevance qsLen))
      (List.range (forcedScores relevance qsLen).length)).take p).length ≤ p := by
    simp [List.length_take]
  omega

/-! ### Fallback-path arithmetic and structure -/

theorem pyHalf_of_le_one (topK : ℤ) (h : topK ≤ 1) : pyHalf topK = 1 := by
  rw [pyHalf, Int.fdiv_eq_ediv _ (by norm_num)]
  have hd : topK / 2 ≤ 0 := by omega
  rcases max_cases (topK / 2) 1 with ⟨h1, h2⟩ | ⟨h1, h2⟩ <;> rw [h1] <;> omega

theorem pyHalf_int_of_ge_two (topK : ℤ) (h : 2 ≤ topK) :
    (pyHalf topK : ℤ) = topK / 2 := by
  rw [pyHalf, Int.fdiv_eq_ediv _ (by norm_num)]
  have hd : 1 ≤ topK / 2 := by omega
  rcases max_cases (topK / 2) 1 with ⟨h1, h2⟩ | ⟨h1, h2⟩ <;> rw [h1] <;> omega

theorem pyHalf_le_of_lt (topK : ℤ) (n : ℕ) (hgt : topK < (n : ℤ)) (h1 : 1 ≤ n) :
    pyHalf topK ≤ n := by
  rcases le_or_lt topK 1 with h | h
  · rw [pyHalf_of_le_one _ h]
    exact h1
  · have h2 := pyHalf_int_of_ge_two topK (by omega)
    omega

theorem two_pyHalf_le_succ (topK : ℤ) (n : ℕ) (hgt : topK < (n : ℤ)) (h1 : 1 ≤ n) :
    2 * pyHalf topK ≤ n + 1 := by
  rcases le_or_lt topK 1 with h | h
  · rw [pyHalf_of_le_one _ h]
    omega
  · have h2 := pyHalf_int_of_ge_two topK (by omega)
    omega

theorem fallbackSelected_of_le (ids : List ℕ) (topK : ℤ)
    (h : (ids.length : ℤ) ≤ topK) : fallbackSelected ids topK = ids := by
  rw [fallbackSelected, if_pos h]

theorem fallbackSelected_of_gt (ids : List ℕ) (topK : ℤ)
    (h : topK < (ids.length : ℤ)) :
    fallbackSelected ids topK =
      ids.take (pyHalf topK) ++ ids.drop (ids.length - pyHalf topK) := by
  rw [fallbackSelected, if_neg (not_le.mpr h)]

/-- On the truncating branch the fallback output reads exactly the positions
`0, …, half-1` and `len-half, …, len-1` of the context, in that order. -/
theorem fallbackSelected_gt_eq_map (ids : List ℕ) (topK : ℤ)
    (hgt : topK < (ids.length : ℤ)) (h1 : 1 ≤ ids.length) :
    fallbackSelected ids topK =
      (List.range (pyHalf topK) ++ (List.range (pyHalf topK)).map
        (fun i => ids.length - pyHalf topK + i)).map (fun i => ids.getD i 0) := by
  have hle := pyHalf_le_of_lt topK ids.length hgt h1
  rw [fallbackSelected_of_gt _ _ hgt, List.map_append, List.map_map]
  congr 1
  · exact take_eq_map_range 0 ids _ hle
  · rw [drop_eq_map_range 0 ids (ids.length - pyHalf topK)]
    have hsub : ids.length - (ids.length - pyHalf topK) = pyHalf topK := by omega
    rw [hsub]
    rfl

/-! ### Claim theorems: context reducer -/

/-- C5 counterexample: with `top_k = 1` and a two-token context the fallback
path keeps `max(1//2, 1) = 1` token on each side, so `tokens_after = 2 >
top_k`. -/
theorem fallback_exceeds_topk_one :
    reduce charTok none "q" "ab" 1 = some (reduceFallback charTok "q" "ab" 1) ∧
    ¬ ((reduceFallback charTok "q" "ab" 1).tokensAfter ≤ 1) :=
  ⟨rfl, by decide⟩

/-- C5 (amended): for every positive `top_k`, `tokens_after ≤ max top_k 2` on
both paths — the bound `top_k` itself holds everywhere except the fallback
branch with `top_k = 1` and more than one context token, which keeps 2. -/
theorem reduce_tokensAfter_le_max (tok : Tokenizer) (oracle : Option (ℕ → ℚ))
    (query context : String) (topK : ℤ) (r : ReduceResult)
    (hpos : 0 < topK)
    (hr : reduce tok oracle query context topK = some r) :
    (r.tokensAfter : ℤ) ≤ max topK 2 := by
  cases oracle with
  | none =>
    rw [reduce, Option.some.injEq] at hr
    subst hr
    simp only [reduceFallback]
    by_cases hlen : (((tok.encode (query ++ sepText ++ context)).drop
        ((tok.encode query).length + (tok.encode sepText).length)).length : ℤ) ≤
        topK
    · rw [fallbackSelected_of_le _ _ hlen]
      have hm := le_max_left topK 2
      omega
    · push_neg at hlen
      rw [fallbackSelected_of_gt _ _ hlen]
      simp only [List.length_append, List.length_take, List.length_drop] at hlen ⊢
      rcases le_or_lt topK 1 with h1 | h1
      · rw [pyHalf_of_le_one _ h1]
        have hm := le_max_right topK 2
        push_cast
        omega
      · have h2 := pyHalf_int_of_ge_two topK (by omega)
        have hm := le_max_left topK 2
        push_cast
        omega
  | some rel =>
    rw [reduce, reduceOracle] at hr
    split at hr
    · exact absurd hr (by simp)
    · rw [Option.some.injEq] at hr
      subst hr
      simp only [List.length_map]
      rw [oracleSelectedPositions, sortedPositions, List.length_insertionSort,
        topkIndices, List.length_take, List.length_insertionSort,
        List.length_range, length_forcedScores, List.length_map,
        List.length_range]
      have hm := le_max_left topK 2
      omega

/-- C5 witness: the counterexample input satisfies the amended bound. -/
theorem reduce_tokensAfter_le_max_witness :
    (((reduceFallback charTok "q" "ab" 1).tokensAfter : ℤ)) ≤ max 1 2 :=
  reduce_tokensAfter_le_max charTok none "q" "ab" 1 _ (by decide) rfl

/-- C6 counterexample: with `top_k = 3` and a ten-token context the code
keeps `max(3//2, 1) = 1` token on each side (2 tokens), while the claim's
`⌈3/2⌉ = 2` first plus `⌊3/2⌋ = 1` last would keep 3. -/
theorem fallback_differs_from_spec_halves :
    (fallbackSelected (charTok.encode "abcdefghij") 3).length = 2 ∧
    (specFallbackSelected (charTok.encode "abcdefghij") 3).length = 3 ∧
    fallbackSelected (charTok.encode "abcdefghij") 3 ≠
      specFallbackSelected (charTok.encode "abcdefghij") 3 := by
  decide

/-- C6 (amended): on the fallback path, a context of at most `top_k` tokens
is kept unchanged; a longer one keeps exactly the first `max(⌊top_k/2⌋, 1)`
and the last `max(⌊top_k/2⌋, 1)` token positions of the context, in original
order. -/
theorem fallbackSelected_spec (ids : List ℕ) (topK : ℤ) (hpos : 0 < topK) :
    (((ids.length : ℤ) ≤ topK → fallbackSelected ids topK = ids) ∧
      (topK < (ids.length : ℤ) →
        fallbackSelected ids topK =
          ((List.range (pyHalf topK)).map (fun i => ids.getD i 0)) ++
            ((List.range (pyHalf topK)).map
              (fun i => ids.getD (ids.length - pyHalf topK + i) 0)))) := by
  constructor
  · exact fallbackSelected_of_le ids topK
  · intro h
    have h1 : 1 ≤ ids.length := by omega
    rw [fallbackSelected_gt_eq_map ids topK h h1, List.map_append, List.map_map]
    rfl

/-- C6 witness: the spec's scenario C (`top_k = 4`, ten-token context keeps
positions 0, 1, 8, 9). -/
theorem fallbackSelected_spec_witness :
    fallbackSelected (charTok.encode "abcdefghij") 4 =
      ((List.range (pyHalf 4)).map
        (fun i => (charTok.encode "abcdefghij").getD i 0)) ++
        ((List.range (pyHalf 4)).map
          (fun i => (charTok.encode "abcdefghij").getD
            ((charTok.encode "abcdefghij").length - pyHalf 4 + i) 0)) :=
  (fallbackSelected_spec (charTok.encode "abcdefghij") 4 (by decide)).2 (by decide)

/-- C7 counterexample: when `top_k` exceeds the number of context tokens,
`torch.topk` must fill the quota with `-inf` positions — here position 0, a
query-token position, is selected. -/
theorem oracle_selects_query_position :
    0 ∈ oracleSelectedPositions charTok (fun _ => 1) "q" "a" 2 ∧
    0 < (charTok.encode "q").length + (charTok.encode sepText).length := by
  decide

/-- C7 (amended): whenever the requested count `min(top_k, seq_len)` fits
into the context region, no query-token or separator-token position is ever
selected on the oracle path. -/
theorem oracle_selection_avoids_query_sep (tok : Tokenizer) (relevance : ℕ → ℚ)
    (query context : String) (topK : ℤ) (i : ℕ)
    (hfit : min topK.toNat (tok.encode (query ++ sepText ++ context)).length ≤
      (tok.encode (query ++ sepText ++ context)).length -
        ((tok.encode query).length + (tok.encode sepText).length))
    (hmem : i ∈ oracleSelectedPositions tok relevance query context topK) :
    (tok.encode query).length + (tok.encode sepText).length ≤ i := by
  rw [oracleSelectedPositions, sortedPositions, List.mem_insertionSort] at hmem
  refine topkIndices_avoid_masked _ _ _ ?_ i hmem
  simpa using hfit

/-- C7 witness: with a two-token context and `top_k = 2`, the selected
position 21 lies past the 20 query/separator positions. -/
theorem oracle_selection_avoids_query_sep_witness :
    (charTok.encode "q").length + (charTok.encode sepText).length ≤ 21 :=
  oracle_selection_avoids_query_sep charTok (fun _ => 1) "q" "ab" 2 21
    (by decide) (by decide)

/-- C8: on both paths the surviving tokens appear in the condensed output in
their original relative order: the fallback output reads the context at a
nondecreasing list of positions, and the oracle path re-sorts the selected
positions ascending before gathering. -/
theorem reduce_preserves_order :
    (∀ (ids : List ℕ) (topK : ℤ), ∃ P : List ℕ, List.Sorted (· ≤ ·) P ∧
      fallbackSelected ids topK = P.map (fun i => ids.getD i 0)) ∧
    (∀ (scores : List (Option ℚ)) (k : ℕ),
      List.Sorted (· ≤ ·) (sortedPositions scores k)) := by
  constructor
  · intro ids topK
    by_cases hlen : (ids.length : ℤ) ≤ topK
    · refine ⟨List.range ids.length, List.sorted_le_range _, ?_⟩
      rw [fallbackSelected_of_le _ _ hlen, ← take_eq_map_range 0 ids _ le_rfl,
        List.take_length]
    · push_neg at hlen
      by_cases h0 : ids.length = 0
      · refine ⟨[], List.sorted_nil, ?_⟩
        rw [fallbackSelected_of_gt _ _ hlen]
        rw [List.length_eq_zero] at h0
        subst h0
        simp
      · have h1 : 1 ≤ ids.length := by omega
        refine ⟨List.range (pyHalf topK) ++ (List.range (pyHalf topK)).map
          (fun i => ids.length - pyHalf topK + i), ?_,
          fallbackSelected_gt_eq_map ids topK hlen h1⟩
        rw [List.Sorted, List.pairwise_append]
        refine ⟨List.sorted_le_range _, ?_, ?_⟩
        · rw [List.pairwise_map]
          exact (List.sorted_le_range (pyHalf topK)).imp (fun hab => by omega)
        · intro a ha b hb
          rw [List.mem_range] at ha
          rw [List.mem_map] at hb
          obtain ⟨j, hj, hbe⟩ := hb
          rw [List.mem_range] at hj
          have h2 := two_pyHalf_le_succ topK ids.length hlen h1
          omega
  · intro scores k
    exact List.sorted_insertionSort _ _

/-- C9 counterexample: on the oracle path a one-token context with
`top_k = 2` still selects `min(top_k, seq_len) = 2` positions, so a query
token leaks into the output: the condensed text is `"qa"`, not the context
`"a"`, and `tokens_after = 2` is not `tokens_before` minus the query and
separator length (`21 - 20 = 1`). -/
theorem oracle_short_context_not_roundtrip :
    reduce charTok (some (fun _ => (1 : ℚ))) "q" "a" 2 =
      some { condensed := "qa", tokensBefore := 21, tokensAfter := 2 } ∧
    ((charTok.encode "a").length : ℤ) ≤ 2 ∧
    "qa" ≠ "a" ∧
    (2 : ℕ) ≠ 21 - ((charTok.encode "q").length + (charTok.encode sepText).length) :=
  ⟨by decide, by decide, by decide, by decide⟩

/-- C9 (amended): on the fallback path, when the tokenizer splits cleanly at
the query/separator/context boundaries and decoding inverts encoding, a
context of at most `top_k` tokens (the empty context included) round-trips:
`reduce` returns, `condensed_text` is the original context, and
`tokens_after = tokens_before - (query+separator length)`. -/
theorem fallback_short_context_roundtrip (tok : Tokenizer)
    (query context : String) (topK : ℤ)
    (halign : tok.encode (query ++ sepText ++ context) =
      tok.encode query ++ tok.encode sepText ++ tok.encode context)
    (hrt : tok.decode (tok.encode context) = context)
    (hlen : ((tok.encode context).length : ℤ) ≤ topK) :
    reduce tok none query context topK =
      some { condensed := context
             tokensBefore := (tok.encode (query ++ sepText ++ context)).length
             tokensAfter := (tok.encode (query ++ sepText ++ context)).length -
               ((tok.encode query).length + (tok.encode sepText).length) } := by
  have hctx : (tok.encode (query ++ sepText ++ context)).drop
      ((tok.encode query).length + (tok.encode sepText).length) =
      tok.encode context := by
    rw [halign, ← List.length_append, List.drop_left]
  have hafter : (tok.encode (query ++ sepText ++ context)).length -
      ((tok.encode query).length + (tok.encode sepText).length) =
      (tok.encode context).length := by
    rw [halign]
    simp only [List.length_append]
    omega
  simp only [reduce, reduceFallback]
  rw [hctx, fallbackSelected_of_le _ _ hlen, hrt, hafter]

/-- C9 witness: the empty context with `top_k = 0` round-trips. -/
theorem fallback_short_context_roundtrip_witness :
    reduce charTok none "q" "" 0 =
      some { condensed := ""
             tokensBefore := (charTok.encode ("q" ++ sepText ++ "")).length
             tokensAfter := (charTok.encode ("q" ++ sepText ++ "")).length -
               ((charTok.encode "q").length + (charTok.encode sepText).length) } :=
  fallback_short_context_roundtrip charTok "q" "" 0 (by decide) (by decide)
    (by decide)

/-- C10: on both paths, whenever `reduce` returns, `tokens_after ≤
tokens_before` — the compression saving reported to the caller is never
negative.  (The fixed separator is a non-empty string, so its tokenization
is non-empty.) -/
theorem reduce_tokensAfter_le_tokensBefore (tok : Tokenizer)
    (oracle : Option (ℕ → ℚ)) (query context : String) (topK : ℤ)
    (r : ReduceResult)
    (hsep : 1 ≤ (tok.encode sepText).length)
    (hr : reduce tok oracle query context topK = some r) :
    r.tokensAfter ≤ r.tokensBefore := by
  cases oracle with
  | none =>
    rw [reduce, Option.some.injEq] at hr
    subst hr
    simp only [reduceFallback]
    have hids := List.length_drop
      ((tok.encode query).length + (tok.encode sepText).length)
      (tok.encode (query ++ sepText ++ context))
    by_cases hlen : (((tok.encode (query ++ sepText ++ context)).drop
        ((tok.encode query).length + (tok.encode sepText).length)).length : ℤ) ≤
        topK
    · rw [fallbackSelected_of_le _ _ hlen]
      omega
    · push_neg at hlen
      rw [fallbackSelected_of_gt _ _ hlen]
      simp only [List.length_append, List.length_take, List.length_drop] at hlen ⊢
      rcases le_or_lt topK 1 with h1 | h1
      · rw [pyHalf_of_le_one _ h1]
        omega
      · have h2 := pyHalf_int_of_ge_two topK (by omega)
        omega
  | some rel =>
    rw [reduce, reduceOracle] at hr
    split at hr
    · exact absurd hr (by simp)
    · rw [Option.some.injEq] at hr
      subst hr
      simp only [List.length_map]
      rw [oracleSelectedPositions, sortedPositions, List.length_insertionSort,
        topkIndices, List.length_take, List.length_insertionSort,
        List.length_range, length_forcedScores, List.length_map,
        List.length_range]
      omega

/-- C10 witness: a concrete fallback call with the default `top_k = 64`. -/
theorem reduce_tokensAfter_le_tokensBefore_witness :
    (reduceFallback charTok "q" "a" 64).tokensAfter ≤
      (reduceFallback charTok "q" "a" 64).tokensBefore :=
  reduce_tokensAfter_le_tokensBefore charTok none "q" "a" 64 _ (by decide) rfl

end MemoryOps
